import Mathlib

/-!
Verification of the FileSense core (src/src-tauri/src/main.rs): the
classification engine (`categorize_file` and its keyword helpers), the folder
scanner (`analyze_folder`), and the move/undo subsystem (`organize_files`,
`undo_organize`).  Rust strings are modelled as Lean `String`s (all keyword
data is ASCII, so `Char.toLower` agrees with Rust `to_lowercase`), the
filesystem is modelled as an explicit state (a list of file paths and a list
of directory paths), and `serde_json::Value` as an inductive `Jval`.
-/

namespace FileSense

/-- Substring test on character lists: does `pat` occur contiguously in the
haystack?  Models Rust `str::contains` (byte containment of valid UTF-8
coincides with character containment). -/
def listContainsSub (pat : List Char) : List Char → Bool
  | [] => pat.isEmpty
  | c :: rest => List.isPrefixOf pat (c :: rest) || listContainsSub pat rest

/-- Rust `str::contains`: `pat` occurs as a contiguous substring of `hay`. -/
def strContains (hay pat : String) : Bool :=
  listContainsSub pat.toList hay.toList

/-- Rust `str::to_lowercase`, restricted to ASCII (all keyword and extension
data in the source is ASCII).  Implemented over the character list so that it
reduces in the kernel. -/
def strToLower (s : String) : String :=
  String.mk (s.toList.map Char.toLower)

/-- The fixed sensitive-keyword table of `is_sensitive_file` (main.rs:89-95). -/
def sensitive_keywords : List String :=
  ["tax", "irs", "w2", "1099", "ssn", "social", "security",
   "bank", "account", "statement", "routing", "financial",
   "password", "credential", "key", "secret", "login", "auth",
   "medical", "health", "prescription", "doctor", "patient",
   "personal", "private", "confidential", "classified"]

/-- main.rs:88-98 `is_sensitive_file`. -/
def is_sensitive_file (file_name : String) : Bool :=
  sensitive_keywords.any (fun k => strContains file_name k)

/-- The fixed work-keyword table of `is_work_document` (main.rs:102-107). -/
def work_keywords : List String :=
  ["meeting", "presentation", "report", "proposal", "contract",
   "client", "project", "deadline", "invoice", "budget",
   "company", "corporate", "business", "professional",
   "quarterly", "annual", "fiscal", "revenue", "salary"]

/-- main.rs:101-110 `is_work_document`. -/
def is_work_document (file_name : String) : Bool :=
  work_keywords.any (fun k => strContains file_name k)

/-- The fixed personal-keyword table of `is_personal_photo` (main.rs:114-118). -/
def personal_keywords : List String :=
  ["vacation", "holiday", "trip", "travel", "family",
   "birthday", "wedding", "anniversary", "graduation",
   "photo", "pic", "img", "selfie", "camera"]

/-- main.rs:113-125 `is_personal_photo`: a personal keyword occurs, or the
date-pattern heuristic fires (contains "20" and one of "2023", "2024",
"2025"). -/
def is_personal_photo (file_name : String) : Bool :=
  let has_date_pattern := strContains file_name "20" &&
    (strContains file_name "2023" || strContains file_name "2024" ||
     strContains file_name "2025")
  personal_keywords.any (fun k => strContains file_name k) || has_date_pattern

/-- main.rs:11-17 `FileInfo`. -/
structure FileInfo where
  name : String
  path : String
  size : Nat
  extension : String
deriving DecidableEq, Repr

/-- The extension group of the Documents match arm (main.rs:44). -/
def documentExts : List String := ["pdf", "doc", "docx", "txt", "rtf", "odt"]

/-- The extension group of the spreadsheets/presentations arm (main.rs:53). -/
def spreadsheetExts : List String := ["xls", "xlsx", "csv", "ods", "ppt", "pptx", "odp"]

/-- The extension group of the Images arm (main.rs:56). -/
def imageExts : List String :=
  ["jpg", "jpeg", "png", "gif", "bmp", "tiff", "svg", "webp", "heic"]

/-- The extension group of the Videos arm (main.rs:65). -/
def videoExts : List String := ["mp4", "avi", "mov", "wmv", "flv", "mkv", "webm", "m4v"]

/-- The extension group of the Audio arm (main.rs:68). -/
def audioExts : List String := ["mp3", "wav", "flac", "aac", "ogg", "wma", "m4a"]

/-- The extension group of the Archives arm (main.rs:71). -/
def archiveExts : List String := ["zip", "rar", "7z", "tar", "gz", "bz2", "xz"]

/-- The extension group of the Code arm (main.rs:74-75). -/
def codeExts : List String :=
  ["js", "ts", "jsx", "tsx", "py", "java", "cpp", "c", "h", "css", "html",
   "php", "rb", "go", "rs", "swift", "kt", "cs", "vb", "sql", "json", "xml",
   "yml", "yaml"]

/-- The extension group of the Software arm (main.rs:80). -/
def softwareExts : List String := ["exe", "msi", "dmg", "pkg", "deb", "rpm", "appx", "app"]

/-- main.rs:32-85 `categorize_file`: the sensitive check first, then the
extension match (each Rust or-pattern arm rendered as membership in the
corresponding extension list, tested in arm order), default "Other". -/
def categorize_file (file_info : FileInfo) : String :=
  let file_name := strToLower file_info.name
  let extension := strToLower file_info.extension
  if is_sensitive_file file_name then "Sensitive"
  else if extension ∈ documentExts then
    (if is_work_document file_name then "Work Documents" else "Documents")
  else if extension ∈ spreadsheetExts then "Documents"
  else if extension ∈ imageExts then
    (if is_personal_photo file_name then "Personal Photos" else "Images")
  else if extension ∈ videoExts then "Videos"
  else if extension ∈ audioExts then "Audio"
  else if extension ∈ archiveExts then "Archives"
  else if extension ∈ codeExts then "Code"
  else if extension ∈ softwareExts then "Software"
  else "Other"

/-- C1: a filename containing any sensitive keyword (as a substring of the
lowercased name) is classified Sensitive, whatever the extension; the check
precedes and overrides every extension rule. -/
theorem sensitive_overrides_extension (f : FileInfo)
    (h : ∃ k ∈ sensitive_keywords, strContains (strToLower f.name) k = true) :
    categorize_file f = "Sensitive" := by
  have hs : is_sensitive_file (strToLower f.name) = true := by
    simpa [is_sensitive_file, List.any_eq_true] using h
  simp [categorize_file, hs]

/-- Witness for C1: "tax_2024.pdf" contains the keyword "tax" and is
classified Sensitive despite its pdf extension. -/
theorem sensitive_overrides_extension_witness :
    categorize_file ⟨"tax_2024.pdf", "", 0, "pdf"⟩ = "Sensitive" :=
  sensitive_overrides_extension ⟨"tax_2024.pdf", "", 0, "pdf"⟩
    ⟨"tax", by decide, by decide⟩

/-- C4 counterexample: `classify` on "IMG_0001.jpg" does not return Images,
because the lowercased name contains the personal keyword "img". -/
theorem img0001_not_images :
    categorize_file ⟨"IMG_0001.jpg", "IMG_0001.jpg", 0, "jpg"⟩ ≠ "Images" := by
  decide

/-- C4 amended: `classify` on "IMG_0001.jpg" returns Personal Photos, since
"img_0001.jpg" contains the personal keyword "img" (it is free of sensitive
keywords, so the Images-group rule applies and the keyword fires). -/
theorem img0001_personal_photos :
    categorize_file ⟨"IMG_0001.jpg", "IMG_0001.jpg", 0, "jpg"⟩ = "Personal Photos" := by
  decide

/-- C5: with no sensitive keyword and an extension in the Documents group, the
label is Work Documents exactly when a work keyword occurs, else Documents. -/
theorem documents_group_work_split (f : FileInfo)
    (hs : is_sensitive_file (strToLower f.name) = false)
    (hd : strToLower f.extension ∈ documentExts) :
    categorize_file f =
      (if (∃ k ∈ work_keywords, strContains (strToLower f.name) k = true)
       then "Work Documents" else "Documents") := by
  have hwi : is_work_document (strToLower f.name) = true ↔
      ∃ k ∈ work_keywords, strContains (strToLower f.name) k = true := by
    simp [is_work_document, List.any_eq_true]
  simp only [categorize_file, hs, Bool.false_eq_true, if_false, if_pos hd]
  by_cases h : ∃ k ∈ work_keywords, strContains (strToLower f.name) k = true
  · have hw := hwi.mpr h
    simp [hw, h]
  · have hw : is_work_document (strToLower f.name) = false :=
      Bool.eq_false_iff.mpr (fun hc => h (hwi.mp hc))
    simp [hw, h]

/-- Witness for C5: "quarterly_report.docx" (work keyword present) is Work
Documents; the hypotheses hold concretely. -/
theorem documents_group_work_split_witness :
    categorize_file ⟨"quarterly_report.docx", "", 0, "docx"⟩ =
      (if (∃ k ∈ work_keywords, strContains (strToLower "quarterly_report.docx") k = true)
       then "Work Documents" else "Documents") :=
  documents_group_work_split ⟨"quarterly_report.docx", "", 0, "docx"⟩
    (by decide) (by decide)

/-- The date-pattern / personal-keyword condition of C6, spelled out as the
claim states it. -/
def personalPhotoCond (lname : String) : Prop :=
  (∃ k ∈ personal_keywords, strContains lname k = true) ∨
    (strContains lname "20" = true ∧
      (strContains lname "2023" = true ∨ strContains lname "2024" = true ∨
       strContains lname "2025" = true))

instance (lname : String) : Decidable (personalPhotoCond lname) := by
  unfold personalPhotoCond; infer_instance

theorem is_personal_photo_iff (lname : String) :
    is_personal_photo lname = true ↔ personalPhotoCond lname := by
  simp only [is_personal_photo, personalPhotoCond, List.any_eq_true,
    Bool.or_eq_true, Bool.and_eq_true, or_assoc]

/-- C6: with no sensitive keyword and an extension in the Images group, the
label is Personal Photos iff a personal keyword occurs or the filename
contains "20" together with one of "2023", "2024", "2025"; otherwise the
label is Images. -/
theorem images_group_personal_split (f : FileInfo)
    (hs : is_sensitive_file (strToLower f.name) = false)
    (hi : strToLower f.extension ∈ imageExts) :
    (categorize_file f = "Personal Photos" ↔ personalPhotoCond (strToLower f.name)) ∧
      (¬ personalPhotoCond (strToLower f.name) → categorize_file f = "Images") := by
  have hi' := hi
  simp only [imageExts, List.mem_cons, List.mem_singleton,
    List.not_mem_nil, or_false] at hi'
  have hnd : strToLower f.extension ∉ documentExts := by
    rcases hi' with h|h|h|h|h|h|h|h|h <;> rw [h] <;> decide
  have hns : strToLower f.extension ∉ spreadsheetExts := by
    rcases hi' with h|h|h|h|h|h|h|h|h <;> rw [h] <;> decide
  simp only [categorize_file, hs, Bool.false_eq_true, if_false, if_neg hnd,
    if_neg hns, if_pos hi]
  by_cases hp : is_personal_photo (strToLower f.name) = true
  · have := (is_personal_photo_iff (strToLower f.name)).mp hp
    simp [hp, this]
  · have := (is_personal_photo_iff (strToLower f.name)).not.mp hp
    simp [hp]
    exact fun h => absurd h this

/-- Witness for C6: "family_vacation.jpg" satisfies the hypotheses and is
classified Personal Photos. -/
theorem images_group_personal_split_witness :
    categorize_file ⟨"family_vacation.jpg", "", 0, "jpg"⟩ = "Personal Photos" :=
  (images_group_personal_split ⟨"family_vacation.jpg", "", 0, "jpg"⟩
      (by decide) (by decide)).1.mpr (Or.inl ⟨"vacation", by decide, by decide⟩)

/-! ### Paths

Paths are strings.  Component splitting models Rust `Path::components`
normalisation (empty and "." components dropped); `fileNameOf` models
`Path::file_name` (last normal component, `none` for a trailing ".." or no
component), `parentOf` models `Path::parent`, `pathJoin` models
`Path::join`. -/

/-- Split a character list at every occurrence of `sep` (the splitter used by
the path model; kernel-reducible, in contrast to `String.splitOn`). -/
def splitOnChar (sep : Char) : List Char → List (List Char)
  | [] => [[]]
  | c :: rest =>
    let r := splitOnChar sep rest
    if c = sep then [] :: r
    else
      match r with
      | [] => [[c]]
      | w :: ws => (c :: w) :: ws

/-- `String.startsWith`, via list prefixes so that it reduces. -/
def strStartsWith (s pre : String) : Bool :=
  List.isPrefixOf pre.toList s.toList

/-- `String.endsWith`, via list suffixes so that it reduces. -/
def strEndsWith (s suf : String) : Bool :=
  List.isSuffixOf suf.toList s.toList

/-- The normal components of a path string. -/
def pathComps (p : String) : List String :=
  ((splitOnChar '/' p.toList).map String.mk).filter (fun c => c != "" && c != ".")

/-- Rust `Path::file_name`, on strings. -/
def fileNameOf (p : String) : Option String :=
  match (pathComps p).getLast? with
  | none => none
  | some c => if c = ".." then none else some c

/-- Components interleaved with separators. -/
def interSlash : List String → String
  | [] => ""
  | [c] => c
  | c :: rest => c ++ "/" ++ interSlash rest

/-- Rebuild a path from an absolute flag and components. -/
def joinComps (abs : Bool) (cs : List String) : String :=
  (if abs then "/" else "") ++ interSlash cs

/-- Rust `Path::parent`, on strings (result rendered in normalised form). -/
def parentOf (p : String) : Option String :=
  match pathComps p with
  | [] => none
  | cs => some (joinComps (strStartsWith p "/") cs.dropLast)

/-- Rust `Path::join` for a string on the right: an absolute right side
replaces the whole path, otherwise the two are joined with a separator. -/
def pathJoin (a b : String) : String :=
  if strStartsWith b "/" then b
  else if a = "" then b
  else if strEndsWith a "/" then a ++ b
  else a ++ "/" ++ b

example : fileNameOf "src/a.txt" = some "a.txt" := by decide
example : fileNameOf "a/.." = none := by decide
example : parentOf "root/A/a.txt" = some "root/A" := by decide
example : pathJoin "root" "A" = "root/A" := by decide

/-- main.rs:133-138 `get_file_extension`: the lowercased text after the last
dot of the file name, empty if there is no file name, no embedded dot, or the
only dot is the leading one. -/
def get_file_extension (p : String) : String :=
  match fileNameOf p with
  | none => ""
  | some name =>
    let parts := (splitOnChar '.' name.toList).map String.mk
    if parts.length ≤ 1 then ""
    else if parts.length = 2 && parts.head? == some "" then ""
    else strToLower ((parts.getLast?).getD "")

example : get_file_extension "dir/IMG_0001.JPG" = "jpg" := by decide
example : get_file_extension "archive.tar.gz" = "gz" := by decide
example : get_file_extension ".bashrc" = "" := by decide
example : get_file_extension "README" = "" := by decide

/-! ### Folder scanner (main.rs:162-254 `analyze_folder`)

The directory and its entries are an explicit environment: whether the path
exists, whether it is a directory, and the listing — which may fail as a
whole (`read_dir` error) or per entry.  An entry carries its path, whether it
is a directory, and the size `get_file_size` reports (the source already
defaults it to 0 when metadata cannot be read). -/

/-- One directory entry as the scanner sees it. -/
structure RawEntry where
  path : String
  isDir : Bool
  size : Nat
deriving DecidableEq, Repr

/-- The filesystem facts `analyze_folder` consults about the folder. -/
structure DirEnv where
  pathExists : Bool
  isDir : Bool
  listing : Except String (List (Except String RawEntry))

/-- main.rs:19-23 `FolderAnalysis`; the `HashMap` is an association list
(its iteration order is unspecified in the source). -/
structure FolderAnalysis where
  total_files : Nat
  categories : List (String × List FileInfo)
deriving DecidableEq, Repr

/-- The eleven fixed category names (main.rs:179-183). -/
def category_names : List String :=
  ["Documents", "Images", "Videos", "Audio", "Archives",
   "Code", "Software", "Work Documents", "Personal Photos",
   "Sensitive", "Other"]

/-- The initial categories map: every listed name bound to an empty list
(main.rs:185-187). -/
def initCategories : List (String × List FileInfo) :=
  category_names.map (fun c => (c, []))

/-- `HashMap::get_mut` followed by `push`: append `v` to the sequence of the
first binding of `k`; no effect when `k` is absent. -/
def pushAssoc (k : String) (v : FileInfo) :
    List (String × List FileInfo) → List (String × List FileInfo)
  | [] => []
  | (k', vs) :: rest =>
    if k' = k then (k', vs ++ [v]) :: rest else (k', vs) :: pushAssoc k v rest

/-- The body of the scanner's entry loop (main.rs:195-239): a failed entry is
skipped, directories and hidden files are skipped, otherwise a `FileInfo` is
built, classified, and appended to its category (counting it) when the
category key exists. -/
def processEntry (st : List (String × List FileInfo) × Nat)
    (ent : Except String RawEntry) : List (String × List FileInfo) × Nat :=
  match ent with
  | .error _ => st
  | .ok entry =>
    if entry.isDir || ((fileNameOf entry.path).map (fun n => strStartsWith n ".")).getD false then
      st
    else
      let file_name := (fileNameOf entry.path).getD "unknown"
      let file_info : FileInfo :=
        ⟨file_name, entry.path, entry.size, get_file_extension entry.path⟩
      let category := categorize_file file_info
      if (st.1.lookup category).isSome then
        (pushAssoc category file_info st.1, st.2 + 1)
      else st

/-- The scanner's entry loop over the whole listing. -/
def scanList (entries : List (Except String RawEntry))
    (st : List (String × List FileInfo) × Nat) :
    List (String × List FileInfo) × Nat :=
  entries.foldl processEntry st

/-- main.rs:162-254 `analyze_folder`. -/
def analyze_folder (folder_path : String) (env : DirEnv) :
    Except String FolderAnalysis :=
  if !env.pathExists then
    .error ("Folder does not exist: " ++ folder_path)
  else if !env.isDir then
    .error ("Path is not a directory: " ++ folder_path)
  else
    match env.listing with
    | .error e => .error ("Failed to read directory: " ++ e)
    | .ok entries =>
      let st := scanList entries (initCategories, 0)
      .ok { total_files := st.2, categories := st.1 }

theorem lookup_isSome_pushAssoc (k : String) (v : FileInfo) (c : String) :
    ∀ l : List (String × List FileInfo),
      ((pushAssoc k v l).lookup c).isSome = (l.lookup c).isSome
  | [] => rfl
  | (k', vs) :: rest => by
    by_cases h : k' = k
    · simp only [pushAssoc, if_pos h, List.lookup]
      cases hc : c == k' <;> simp [lookup_isSome_pushAssoc k v c rest]
    · simp only [pushAssoc, if_neg h, List.lookup]
      cases hc : c == k' <;> simp [lookup_isSome_pushAssoc k v c rest]

theorem lookup_isSome_processEntry (st : List (String × List FileInfo) × Nat)
    (ent : Except String RawEntry) (c : String) :
    ((processEntry st ent).1.lookup c).isSome = (st.1.lookup c).isSome := by
  cases ent with
  | error e => rfl
  | ok entry =>
    simp only [processEntry]
    split
    · rfl
    · split
      · simp [lookup_isSome_pushAssoc]
      · rfl

theorem lookup_isSome_scanList (c : String) :
    ∀ (entries : List (Except String RawEntry))
      (st : List (String × List FileInfo) × Nat),
      ((scanList entries st).1.lookup c).isSome = (st.1.lookup c).isSome
  | [], _ => rfl
  | ent :: rest, st => by
    simp only [scanList, List.foldl_cons]
    rw [show (List.foldl processEntry (processEntry st ent) rest) =
        scanList rest (processEntry st ent) from rfl,
      lookup_isSome_scanList c rest (processEntry st ent),
      lookup_isSome_processEntry]

/-- C7: `analyze_folder` fails with the not-found error when the path does
not exist, with the not-a-directory error when it exists but is not a
directory, and with the read error wrapping the underlying failure when the
listing cannot begin; a listing that begins always yields a result, and
per-entry read failures are skipped without effect. -/
theorem analyze_folder_error_taxonomy (p : String) (env : DirEnv) :
    (env.pathExists = false →
      analyze_folder p env = .error ("Folder does not exist: " ++ p)) ∧
    (env.pathExists = true → env.isDir = false →
      analyze_folder p env = .error ("Path is not a directory: " ++ p)) ∧
    (∀ e, env.pathExists = true → env.isDir = true → env.listing = .error e →
      analyze_folder p env = .error ("Failed to read directory: " ++ e)) ∧
    (∀ entries, env.pathExists = true → env.isDir = true →
      env.listing = .ok entries → (analyze_folder p env).isOk = true) ∧
    (∀ e rest st, scanList (.error e :: rest) st = scanList rest st) := by
  obtain ⟨pe, dir, listing⟩ := env
  refine ⟨?_, ?_, ?_, ?_, ?_⟩
  · rintro rfl; simp [analyze_folder]
  · rintro rfl rfl; simp [analyze_folder]
  · rintro e rfl rfl h
    simp only at h
    subst h
    simp [analyze_folder]
  · rintro entries rfl rfl h
    simp only at h
    subst h
    simp [analyze_folder, Except.isOk, Except.toBool]
  · intro e rest st
    simp [scanList, processEntry]

/-- Witness for C7: the three error shapes and the skip of a failing entry at
concrete inputs. -/
theorem analyze_folder_error_taxonomy_witness :
    analyze_folder "gone" ⟨false, false, .ok []⟩ =
        .error ("Folder does not exist: " ++ "gone") ∧
      analyze_folder "f.txt" ⟨true, false, .ok []⟩ =
        .error ("Path is not a directory: " ++ "f.txt") ∧
      analyze_folder "d" ⟨true, true, .error "denied"⟩ =
        .error ("Failed to read directory: " ++ "denied") ∧
      (analyze_folder "d" ⟨true, true, .ok [.error "race"]⟩).isOk = true ∧
      scanList [.error "race"] (initCategories, 0) = scanList [] (initCategories, 0) :=
  ⟨(analyze_folder_error_taxonomy "gone" ⟨false, false, .ok []⟩).1 rfl,
   (analyze_folder_error_taxonomy "f.txt" ⟨true, false, .ok []⟩).2.1 rfl rfl,
   (analyze_folder_error_taxonomy "d" ⟨true, true, .error "denied"⟩).2.2.1 "denied" rfl rfl rfl,
   (analyze_folder_error_taxonomy "d" ⟨true, true, .ok [.error "race"]⟩).2.2.2.1
     [.error "race"] rfl rfl rfl,
   (analyze_folder_error_taxonomy "d" ⟨true, true, .ok []⟩).2.2.2.2
     "race" [] (initCategories, 0)⟩

/-- C8: on any successfully scanned directory all eleven category labels are
present as keys; on an empty directory the result has `total_files = 0` and
each of the eleven sequences empty. -/
theorem analyze_folder_eleven_categories (p : String) (env : DirEnv)
    (entries : List (Except String RawEntry))
    (hx : env.pathExists = true) (hd : env.isDir = true)
    (hl : env.listing = .ok entries) :
    ∃ a, analyze_folder p env = .ok a ∧
      (∀ c ∈ category_names, ((a.categories.lookup c)).isSome = true) ∧
      (entries = [] → a.total_files = 0 ∧
        ∀ c ∈ category_names, a.categories.lookup c = some []) := by
  obtain ⟨pe, dir, listing⟩ := env
  simp only at hx hd hl
  subst hx; subst hd; subst hl
  refine ⟨⟨(scanList entries (initCategories, 0)).2,
    (scanList entries (initCategories, 0)).1⟩, rfl, ?_, ?_⟩
  · intro c hc
    show ((scanList entries (initCategories, 0)).1.lookup c).isSome = true
    rw [lookup_isSome_scanList]
    fin_cases hc <;> decide
  · rintro rfl
    refine ⟨rfl, ?_⟩
    intro c hc
    show ((scanList [] (initCategories, 0)).1.lookup c) = some []
    fin_cases hc <;> decide

/-- Witness for C8: a concrete empty directory. -/
theorem analyze_folder_eleven_categories_witness :
    ∃ a, analyze_folder "d" ⟨true, true, .ok []⟩ = .ok a ∧
      (∀ c ∈ category_names, ((a.categories.lookup c)).isSome = true) ∧
      (([] : List (Except String RawEntry)) = [] → a.total_files = 0 ∧
        ∀ c ∈ category_names, a.categories.lookup c = some []) :=
  analyze_folder_eleven_categories "d" ⟨true, true, .ok []⟩ [] rfl rfl rfl

/-! ### JSON values (`serde_json::Value`) -/

/-- The structured plan value `organize_files` receives.  Objects are
association lists; a plan parsed by serde has unique keys. -/
inductive Jval where
  | null
  | jbool (b : Bool)
  | jnum (n : Int)
  | jstr (s : String)
  | jarr (elems : List Jval)
  | jobj (fields : List (String × Jval))

/-- `Value::get` with a string index: field lookup on objects, `none`
otherwise. -/
def jget (v : Jval) (k : String) : Option Jval :=
  match v with
  | .jobj fields => fields.lookup k
  | _ => none

/-- `Value::as_str`. -/
def jasStr : Jval → Option String
  | .jstr s => some s
  | _ => none

/-- `Value::as_array`. -/
def jasArr : Jval → Option (List Jval)
  | .jarr elems => some elems
  | _ => none

/-- `Value::as_object`. -/
def jasObj : Jval → Option (List (String × Jval))
  | .jobj fields => some fields
  | _ => none

/-! ### The filesystem state

`organize_files` and `undo_organize` touch the filesystem only through
`rename`, `create_dir_all`, `exists`, an is-the-directory-empty probe, and
`remove_dir`.  The state is the set of existing file paths and the set of
existing directory paths (contents are irrelevant to the claims, which are
about locations).  `rename` is modelled as succeeding exactly when the source
is an existing file and nothing exists at the destination; the source leaves
collision behaviour platform-defined, and this model makes a collision an
error. -/

structure FS where
  files : List String
  dirs : List String
deriving DecidableEq, Repr

/-- Does anything (file or directory) exist at this exact path? -/
def FS.pathExists (fs : FS) (p : String) : Bool :=
  fs.files.contains p || fs.dirs.contains p

/-- `std::fs::rename`: moves the file at `src` to `dest`. -/
def FS.rename (fs : FS) (src dest : String) : Option FS :=
  if fs.files.contains src && !fs.files.contains dest && !fs.dirs.contains dest then
    some { files := dest :: fs.files.filter (fun q => q != src), dirs := fs.dirs }
  else none

/-- All nonempty normalised prefixes of a path, the deepest last. -/
def ancestors (d : String) : List String :=
  (List.range (pathComps d).length).map
    (fun i => joinComps (strStartsWith d "/") ((pathComps d).take (i + 1)))

/-- Insert a path into a list of paths if not already present. -/
def insertIfAbsent (xs : List String) (a : String) : List String :=
  if xs.contains a then xs else a :: xs

/-- `std::fs::create_dir_all`: the directory and its ancestors come to
exist; creation fails — modelling the `Err` branch of main.rs:283 — when the
path or one of its ancestors is occupied by an existing file. -/
def FS.createDirAll (fs : FS) (d : String) : Option FS :=
  if (d :: ancestors d).any (fun a => fs.files.contains a) then none
  else some { fs with dirs := (d :: ancestors d).foldl insertIfAbsent fs.dirs }

/-- Is `q` strictly inside the directory `d` (at any depth)? -/
def properInside (d q : String) : Bool :=
  (strStartsWith d "/" == strStartsWith q "/") &&
    List.isPrefixOf (pathComps d) (pathComps q) &&
    (pathComps d != pathComps q)

/-- Is the directory `d` empty: no file or directory lies strictly inside
it? -/
def FS.dirEmpty (fs : FS) (d : String) : Bool :=
  !(fs.files.any (fun q => properInside d q) || fs.dirs.any (fun q => properInside d q))

/-- `std::fs::remove_dir`: removes `d` when it is an existing empty
directory, otherwise does nothing (the source ignores the result). -/
def FS.removeDir (fs : FS) (d : String) : FS :=
  if fs.dirs.contains d && fs.dirEmpty d then
    { fs with dirs := fs.dirs.filter (fun q => q != d) }
  else fs

/-! ### Move planner/executor (main.rs:256-324 `organize_files`) -/

/-- main.rs:25-29 `FileMove` (`from` is a Lean keyword, hence `from_`). -/
structure FileMove where
  from_ : String
  to_ : String
deriving DecidableEq, Repr

/-- The accumulator of the organize loops (main.rs:268-270). -/
structure OrgSt where
  fs : FS
  moved : Nat
  errors : List String
  moves : List FileMove
deriving DecidableEq, Repr

/-- The operating-system text of a failed rename (the model's stand-in for
the platform `io::Error` display). -/
def renameErr : String := "rename failed"

/-- The per-file error text of main.rs:301. -/
def moveFailMsg (src : String) : String :=
  "Failed to move " ++ src ++ ": " ++ renameErr

/-- The body of the inner file loop (main.rs:289-309): extract the source
path and its base name (skipping the entry silently if either is missing),
then attempt the rename, recording an error or a move. -/
def processFile (catDir : String) (st : OrgSt) (file : Jval) : OrgSt :=
  match (jget file "path").bind jasStr with
  | none => st
  | some src =>
    match fileNameOf src with
    | none => st
    | some file_name =>
      let dest := pathJoin catDir file_name
      match st.fs.rename src dest with
      | none => { st with errors := st.errors ++ [moveFailMsg src] }
      | some fs' =>
        { st with fs := fs', moves := st.moves ++ [⟨src, dest⟩],
                  moved := st.moved + 1 }

/-- The inner file loop over a category's sequence. -/
def processFiles (catDir : String) : List Jval → OrgSt → OrgSt
  | [], st => st
  | f :: rest, st => processFiles catDir rest (processFile catDir st f)

/-- The operating-system text of a failed directory creation (the model's
stand-in for the platform `io::Error` display). -/
def createDirErr : String := "create directory failed"

/-- The per-category error text of main.rs:284; Rust's Debug formatting of
the path renders it quoted. -/
def dirFailMsg (d : String) : String :=
  "Failed to create directory " ++ "\"" ++ d ++ "\"" ++ ": " ++ createDirErr

/-- The body of the category loop (main.rs:272-310): the reserved
`target_root` key and non-sequence values are skipped; the category directory
is created if missing — on creation failure the error is recorded and the
category's files are skipped (main.rs:283-286) — then the files are
processed. -/
def processCat (root : String) (st : OrgSt) (kv : String × Jval) : OrgSt :=
  if kv.1 = "target_root" then st
  else
    match jasArr kv.2 with
    | none => st
    | some files =>
      let catDir := pathJoin root kv.1
      if !(st.fs.pathExists catDir) then
        match st.fs.createDirAll catDir with
        | none => { st with errors := st.errors ++ [dirFailMsg catDir] }
        | some fs' => processFiles catDir files { st with fs := fs' }
      else processFiles catDir files st

/-- The category loop over the plan's fields. -/
def processCats (root : String) : List (String × Jval) → OrgSt → OrgSt
  | [], st => st
  | kv :: rest, st => processCats root rest (processCat root st kv)

/-- main.rs:256-324 `organize_files`: validates `target_root`, walks the
categories, and returns either the success payload (message and move log) or
the aggregate error; the filesystem effects persist either way. -/
def organize_files (plan : Jval) (fs : FS) :
    FS × Except String (String × List FileMove) :=
  match (jget plan "target_root").bind jasStr with
  | none => (fs, .error "Missing 'target_root' in organization plan")
  | some root =>
    match jasObj plan with
    | none => (fs, .error "Organization plan is not an object")
    | some cats =>
      let st := processCats root cats ⟨fs, 0, [], []⟩
      if st.errors = [] then
        (st.fs, .ok ("✅ Organized " ++ toString st.moved ++ " files successfully!", st.moves))
      else
        (st.fs, .error ("Moved " ++ toString st.moved ++
          " files, but some errors occurred:\n" ++ String.intercalate "\n" st.errors))

/-! ### Undo executor (main.rs:326-367 `undo_organize`) -/

/-- The accumulator of the undo loop (main.rs:330-331). -/
structure UndoSt where
  fs : FS
  errors : List String
  undone : Nat
deriving DecidableEq, Repr

/-- The per-file undo error text of main.rs:343. -/
def undoFailMsg (t : String) : String :=
  "Failed to move back " ++ t ++ ": " ++ renameErr

/-- The body of the undo loop (main.rs:341-347): rename each `to` back to its
`from`, accumulating errors. -/
def undoMove (st : UndoSt) (m : FileMove) : UndoSt :=
  match st.fs.rename m.to_ m.from_ with
  | none => { st with errors := st.errors ++ [undoFailMsg m.to_] }
  | some fs' => { st with fs := fs', undone := st.undone + 1 }

/-- The undo loop over the move log. -/
def undoMoves : List FileMove → UndoSt → UndoSt
  | [], st => st
  | m :: rest, st => undoMoves rest (undoMove st m)

/-- First-occurrence deduplication with the already-seen paths accumulated
(structural recursion, so that it evaluates in the kernel). -/
def dedupFirstAux (seen : List String) : List String → List String
  | [] => []
  | a :: rest =>
    if seen.contains a then dedupFirstAux seen rest
    else a :: dedupFirstAux (a :: seen) rest

/-- First-occurrence deduplication (the `HashSet` of main.rs:334-339; its
iteration order is unspecified in the source, insertion order here). -/
def dedupFirst (l : List String) : List String :=
  dedupFirstAux [] l

/-- The distinct parent directories of the log's `to` paths, collected before
any reversal (main.rs:334-339). -/
def foldersToCheck (moves : List FileMove) : List String :=
  dedupFirst (moves.filterMap (fun m => parentOf m.to_))

/-- The cleanup loop (main.rs:350-356): remove each collected directory that
still exists and is empty. -/
def removeFolders (folders : List String) (fs : FS) : FS :=
  folders.foldl FS.removeDir fs

/-- The state right after all reversals have been attempted, before any
directory cleanup. -/
def afterReversals (moves : List FileMove) (fs : FS) : FS :=
  (undoMoves moves ⟨fs, [], 0⟩).fs

/-- main.rs:326-367 `undo_organize`. -/
def undo_organize (moves : List FileMove) (fs : FS) : FS × Except String String :=
  let st := undoMoves moves ⟨fs, [], 0⟩
  let fs2 := removeFolders (foldersToCheck moves) st.fs
  if st.errors = [] then
    (fs2, .ok ("✅ Undo successful! Restored " ++ toString st.undone ++ " files."))
  else
    (fs2, .error ("Restored " ++ toString st.undone ++
      " files, but some errors occurred:\n" ++ String.intercalate "\n" st.errors))

/-! ### Facts about move sequences

`applyMove` is the effect of one successful rename on the set of file paths;
`ValidOnFiles` records that a move log arose from a run in which every rename
found its source present and its destination free. -/

/-- The effect of the successful rename `m` on the file-path list. -/
def applyMove (fls : List String) (m : FileMove) : List String :=
  m.to_ :: fls.filter (fun q => q != m.from_)

/-- The effect of a whole move log, applied in order. -/
def applyMoves (fls : List String) (mvs : List FileMove) : List String :=
  mvs.foldl applyMove fls

/-- The source paths of a move log. -/
def fromsList (mvs : List FileMove) : List String := mvs.map (fun m => m.from_)

/-- The destination paths of a move log. -/
def tosList (mvs : List FileMove) : List String := mvs.map (fun m => m.to_)

/-- Each move in turn found its source present and its destination free among
the file paths. -/
def ValidOnFiles : List String → List FileMove → Prop
  | _, [] => True
  | fls, m :: rest =>
    fls.contains m.from_ = true ∧ fls.contains m.to_ = false ∧
      ValidOnFiles (applyMove fls m) rest

theorem contains_iff_mem (l : List String) (p : String) :
    l.contains p = true ↔ p ∈ l :=
  List.elem_iff

theorem mem_applyMove (fls : List String) (m : FileMove) (p : String) :
    p ∈ applyMove fls m ↔ p = m.to_ ∨ (p ∈ fls ∧ p ≠ m.from_) := by
  simp [applyMove, List.mem_filter, bne_iff_ne]

theorem applyMoves_nil (fls : List String) : applyMoves fls [] = fls := rfl

theorem applyMoves_cons (fls : List String) (m : FileMove) (rest : List FileMove) :
    applyMoves fls (m :: rest) = applyMoves (applyMove fls m) rest := rfl

theorem applyMoves_append (fls : List String) (l1 l2 : List FileMove) :
    applyMoves fls (l1 ++ l2) = applyMoves (applyMoves fls l1) l2 :=
  List.foldl_append _ _ _ _

/-- `ValidOnFiles` depends only on which paths are members. -/
theorem validOnFiles_ext :
    ∀ (mvs : List FileMove) (fls fls' : List String),
      (∀ p, p ∈ fls ↔ p ∈ fls') →
      ValidOnFiles fls mvs → ValidOnFiles fls' mvs
  | [], _, _, _, _ => trivial
  | m :: rest, fls, fls', h, ⟨h1, h2, h3⟩ => by
    refine ⟨?_, ?_, ?_⟩
    · rw [contains_iff_mem] at h1 ⊢
      exact (h _).mp h1
    · rw [Bool.eq_false_iff, Ne, contains_iff_mem] at h2 ⊢
      exact fun hc => h2 ((h _).mpr hc)
    · refine validOnFiles_ext rest (applyMove fls m) (applyMove fls' m) ?_ h3
      intro p
      rw [mem_applyMove, mem_applyMove]
      exact or_congr Iff.rfl (and_congr (h p) Iff.rfl)

theorem validOnFiles_append :
    ∀ (l1 l2 : List FileMove) (fls : List String),
      ValidOnFiles fls l1 → ValidOnFiles (applyMoves fls l1) l2 →
      ValidOnFiles fls (l1 ++ l2)
  | [], _, _, _, h2 => h2
  | m :: rest, l2, fls, ⟨ha, hb, hc⟩, h2 =>
    ⟨ha, hb, validOnFiles_append rest l2 (applyMove fls m) hc h2⟩

/-- Every source path of a valid sequence was either present initially or was
some earlier destination. -/
theorem froms_subset :
    ∀ (mvs : List FileMove) (fls : List String),
      ValidOnFiles fls mvs →
      ∀ x ∈ fromsList mvs, x ∈ fls ∨ x ∈ tosList mvs
  | [], _, _, x, hx => absurd hx (by simp [fromsList])
  | m :: rest, fls, ⟨h1, _, h3⟩, x, hx => by
    simp only [fromsList, List.map_cons, List.mem_cons] at hx
    rcases hx with rfl | hx
    · exact Or.inl ((contains_iff_mem _ _).mp h1)
    · rcases froms_subset rest (applyMove fls m) h3 x hx with h | h
      · rcases (mem_applyMove fls m x).mp h with rfl | ⟨h, _⟩
        · exact Or.inr (by simp [tosList])
        · exact Or.inl h
      · exact Or.inr (by simp [tosList, List.mem_cons]; right; simpa [tosList] using h)

/-- A path present initially and never used as a source is never a
destination of a valid sequence. -/
theorem stays_out_tos :
    ∀ (mvs : List FileMove) (fls : List String) (x : String),
      ValidOnFiles fls mvs → x ∈ fls → x ∉ fromsList mvs → x ∉ tosList mvs
  | [], _, _, _, _, _ => by simp [tosList]
  | m :: rest, fls, x, ⟨_, h2, h3⟩, hx, hnf => by
    simp only [tosList, List.map_cons, List.mem_cons]
    push_neg
    constructor
    · rintro rfl
      have hno : ¬ (m.to_ ∈ fls) := by
        rw [← contains_iff_mem, h2]
        simp
      exact hno hx
    · have hx' : x ∈ applyMove fls m := by
        rw [mem_applyMove]
        refine Or.inr ⟨hx, ?_⟩
        intro hc
        exact hnf (by simp [fromsList, hc])
      have hnf' : x ∉ fromsList rest := fun hc => hnf (by simp [fromsList]; right; simpa [fromsList] using hc)
      simpa [tosList] using stays_out_tos rest (applyMove fls m) x h3 hx' hnf'

/-- Pairwise disjointness of a log's source and destination paths. -/
def DisjMoves (mvs : List FileMove) : Prop :=
  ∀ m ∈ mvs, ∀ m' ∈ mvs, m.from_ ≠ m'.to_

theorem disjMoves_of_cons {m : FileMove} {rest : List FileMove}
    (h : DisjMoves (m :: rest)) : DisjMoves rest :=
  fun a ha b hb => h a (List.mem_cons_of_mem _ ha) b (List.mem_cons_of_mem _ hb)

/-- In a valid, disjoint sequence the head's source never recurs as a later
source. -/
theorem head_from_not_in_rest_froms {fls : List String} {m : FileMove}
    {rest : List FileMove} (hv : ValidOnFiles fls (m :: rest))
    (hd : DisjMoves (m :: rest)) : m.from_ ∉ fromsList rest := by
  obtain ⟨h1, h2, h3⟩ := hv
  intro hc
  rcases froms_subset rest (applyMove fls m) h3 m.from_ hc with h | h
  · rcases (mem_applyMove fls m m.from_).mp h with h | ⟨_, hne⟩
    · exact hd m (by simp) m (by simp) h
    · exact hne rfl
  · simp only [tosList, List.mem_map] at h
    obtain ⟨m', hm', he⟩ := h
    exact hd m (by simp) m' (by simp [hm']) he.symm

/-- In a valid, disjoint sequence the head's destination never recurs as a
later destination. -/
theorem head_to_not_in_rest_tos {fls : List String} {m : FileMove}
    {rest : List FileMove} (hv : ValidOnFiles fls (m :: rest))
    (hd : DisjMoves (m :: rest)) : m.to_ ∉ tosList rest := by
  obtain ⟨h1, h2, h3⟩ := hv
  refine stays_out_tos rest (applyMove fls m) m.to_ h3 (by simp [mem_applyMove]) ?_
  intro hc
  simp only [fromsList, List.mem_map] at hc
  obtain ⟨m', hm', he⟩ := hc
  exact hd m' (by simp [hm']) m (by simp) he

/-- A valid sequence remains valid from the state before its (already
disjoint) predecessor move was applied. -/
theorem validOnFiles_shift :
    ∀ (rest : List FileMove) (fls : List String) (m : FileMove),
      DisjMoves (m :: rest) → ValidOnFiles (applyMove fls m) rest →
      ValidOnFiles fls rest
  | [], _, _, _, _ => trivial
  | m2 :: rest', fls, m, hd, ⟨h1, h2, h3⟩ => by
    have hmm : m.from_ ≠ m.to_ := hd m (by simp) m (by simp)
    have h12 : m2.from_ ≠ m.to_ := hd m2 (by simp) m (by simp)
    have h21 : m.from_ ≠ m2.to_ := hd m (by simp) m2 (by simp)
    refine ⟨?_, ?_, ?_⟩
    · rw [contains_iff_mem] at h1 ⊢
      rcases (mem_applyMove fls m m2.from_).mp h1 with h | ⟨h, _⟩
      · exact absurd h h12
      · exact h
    · rw [Bool.eq_false_iff, Ne, contains_iff_mem] at h2 ⊢
      intro hc
      refine h2 ((mem_applyMove fls m m2.to_).mpr (Or.inr ⟨hc, ?_⟩))
      exact fun he => h21 he.symm
    · have hcomm : ∀ p, p ∈ applyMove (applyMove fls m) m2 ↔
          p ∈ applyMove (applyMove fls m2) m := by
        intro p
        rw [mem_applyMove, mem_applyMove, mem_applyMove, mem_applyMove]
        constructor
        · rintro (rfl | ⟨(rfl | ⟨hp, hp1⟩), hp2⟩)
          · exact Or.inr ⟨Or.inl rfl, fun he => h21 he.symm⟩
          · exact Or.inl rfl
          · exact Or.inr ⟨Or.inr ⟨hp, hp2⟩, hp1⟩
        · rintro (rfl | ⟨(rfl | ⟨hp, hp1⟩), hp2⟩)
          · exact Or.inr ⟨Or.inl rfl, fun he => h12 he.symm⟩
          · exact Or.inl rfl
          · exact Or.inr ⟨Or.inr ⟨hp, hp2⟩, hp1⟩
      have h3' := validOnFiles_ext rest' _ _ hcomm h3
      have hd' : DisjMoves (m :: rest') := by
        intro a ha b hb
        have ha' : a ∈ m :: m2 :: rest' := by
          rcases List.mem_cons.mp ha with rfl | h
          · exact List.mem_cons_self _ _
          · exact List.mem_cons_of_mem _ (List.mem_cons_of_mem _ h)
        have hb' : b ∈ m :: m2 :: rest' := by
          rcases List.mem_cons.mp hb with rfl | h
          · exact List.mem_cons_self _ _
          · exact List.mem_cons_of_mem _ (List.mem_cons_of_mem _ h)
        exact hd a ha' b hb'
      exact validOnFiles_shift rest' (applyMove fls m2) m hd' h3'

/-- The closed form of membership after a disjoint move sequence. -/
theorem mem_applyMoves :
    ∀ (mvs : List FileMove) (fls : List String) (p : String),
      DisjMoves mvs →
      (p ∈ applyMoves fls mvs ↔
        p ∈ tosList mvs ∨ (p ∈ fls ∧ p ∉ fromsList mvs))
  | [], fls, p, _ => by simp [applyMoves, tosList, fromsList]
  | m :: rest, fls, p, hd => by
    rw [applyMoves_cons, mem_applyMoves rest (applyMove fls m) p (disjMoves_of_cons hd)]
    have hto : m.to_ ∉ fromsList rest := by
      intro hc
      simp only [fromsList, List.mem_map] at hc
      obtain ⟨m', hm', he⟩ := hc
      exact hd m' (by simp [hm']) m (by simp) he
    simp only [tosList, fromsList, List.map_cons, List.mem_cons, mem_applyMove]
    constructor
    · rintro (h | ⟨(rfl | ⟨hp, hp1⟩), hp2⟩)
      · exact Or.inl (Or.inr h)
      · exact Or.inl (Or.inl rfl)
      · exact Or.inr ⟨hp, by push_neg; exact ⟨hp1, hp2⟩⟩
    · rintro ((rfl | h) | ⟨hp, hnp⟩)
      · refine Or.inr ⟨Or.inl rfl, ?_⟩
        simpa [fromsList] using hto
      · exact Or.inl h
      · push_neg at hnp
        exact Or.inr ⟨Or.inr ⟨hp, hnp.1⟩, by simpa [fromsList] using hnp.2⟩

/-- The undo loop on a state whose files are exactly the result of a valid,
disjoint move sequence over `fls0`: every reversal succeeds, nothing else
changes, and the files end extensionally equal to `fls0`. -/
theorem undoMoves_spec :
    ∀ (mvs : List FileMove) (fls0 L dirs E : List String) (n : Nat),
      ValidOnFiles fls0 mvs →
      DisjMoves mvs →
      (∀ m ∈ mvs, dirs.contains m.from_ = false) →
      (∀ p, L.contains p = true ↔
        (p ∈ tosList mvs ∨ (p ∈ fls0 ∧ p ∉ fromsList mvs))) →
      ∃ L', undoMoves mvs ⟨⟨L, dirs⟩, E, n⟩ = ⟨⟨L', dirs⟩, E, n + mvs.length⟩ ∧
        (∀ p, L'.contains p = true ↔ p ∈ fls0)
  | [], fls0, L, dirs, E, n, _, _, _, hmem => by
    refine ⟨L, by simp [undoMoves], ?_⟩
    intro p
    rw [hmem p]
    simp [tosList, fromsList]
  | m :: rest, fls0, L, dirs, E, n, hv, hd, hdir, hmem => by
    obtain ⟨h1, h2, h3⟩ := hv
    have tosc : tosList (m :: rest) = m.to_ :: tosList rest := rfl
    have fromsc : fromsList (m :: rest) = m.from_ :: fromsList rest := rfl
    have hfrom_fls : m.from_ ∈ fls0 := (contains_iff_mem _ _).mp h1
    have hto_nin_fls : m.to_ ∉ fls0 := by
      rw [← contains_iff_mem, h2]
      simp
    have hfrom_nin_restf : m.from_ ∉ fromsList rest :=
      head_from_not_in_rest_froms ⟨h1, h2, h3⟩ hd
    have hto_nin_restt : m.to_ ∉ tosList rest :=
      head_to_not_in_rest_tos ⟨h1, h2, h3⟩ hd
    have hfrom_nin_tos : m.from_ ∉ tosList (m :: rest) := by
      rw [tosc]
      intro hc
      rcases List.mem_cons.mp hc with he | hc'
      · exact hd m (by simp) m (by simp) he
      · simp only [tosList, List.mem_map] at hc'
        obtain ⟨m', hm', he⟩ := hc'
        exact hd m (by simp) m' (List.mem_cons_of_mem _ hm') he.symm
    have hc1 : L.contains m.to_ = true := by
      rw [hmem]
      refine Or.inl ?_
      rw [tosc]
      exact List.mem_cons_self _ _
    have hc2 : L.contains m.from_ = false := by
      rw [Bool.eq_false_iff, Ne, hmem]
      rintro (hc | ⟨_, hnf⟩)
      · exact hfrom_nin_tos hc
      · refine hnf ?_
        rw [fromsc]
        exact List.mem_cons_self _ _
    have hc3 : dirs.contains m.from_ = false := hdir m (by simp)
    have hm1 : m.to_ ∈ L := (contains_iff_mem _ _).mp hc1
    have hm2 : m.from_ ∉ L := by
      rw [← contains_iff_mem, hc2]
      simp
    have hm3 : m.from_ ∉ dirs := by
      rw [← contains_iff_mem, hc3]
      simp
    have hren : FS.rename ⟨L, dirs⟩ m.to_ m.from_ =
        some ⟨m.from_ :: L.filter (fun q => q != m.to_), dirs⟩ := by
      simp [FS.rename, hc1, hc2, hc3, hm1, hm2, hm3]
    have hstep : undoMove ⟨⟨L, dirs⟩, E, n⟩ m =
        ⟨⟨m.from_ :: L.filter (fun q => q != m.to_), dirs⟩, E, n + 1⟩ := by
      simp [undoMove, hren]
    have hmem' : ∀ p, (m.from_ :: L.filter (fun q => q != m.to_)).contains p = true ↔
        (p ∈ tosList rest ∨ (p ∈ fls0 ∧ p ∉ fromsList rest)) := by
      intro p
      rw [contains_iff_mem]
      simp only [List.mem_cons, List.mem_filter, bne_iff_ne]
      constructor
      · rintro (rfl | ⟨hpL, hpne⟩)
        · exact Or.inr ⟨hfrom_fls, hfrom_nin_restf⟩
        · rcases (hmem p).mp ((contains_iff_mem _ _).mpr hpL) with hc | ⟨hpf, hnf⟩
          · rw [tosc] at hc
            rcases List.mem_cons.mp hc with rfl | hc'
            · exact absurd rfl hpne
            · exact Or.inl hc'
          · refine Or.inr ⟨hpf, fun hc => hnf ?_⟩
            rw [fromsc]
            exact List.mem_cons_of_mem _ hc
      · rintro (hc | ⟨hpf, hnf⟩)
        · have hpne : p ≠ m.to_ := fun he => hto_nin_restt (he ▸ hc)
          refine Or.inr ⟨?_, hpne⟩
          rw [← contains_iff_mem, hmem]
          refine Or.inl ?_
          rw [tosc]
          exact List.mem_cons_of_mem _ hc
        · by_cases hpm : p = m.from_
          · exact Or.inl hpm
          · have hpne : p ≠ m.to_ := fun he => hto_nin_fls (he ▸ hpf)
            refine Or.inr ⟨?_, hpne⟩
            rw [← contains_iff_mem, hmem]
            refine Or.inr ⟨hpf, fun hc => ?_⟩
            rw [fromsc] at hc
            rcases List.mem_cons.mp hc with he | hc'
            · exact hpm he
            · exact hnf hc'
    have hv' : ValidOnFiles fls0 rest := validOnFiles_shift rest fls0 m hd h3
    have hdir' : ∀ m' ∈ rest, dirs.contains m'.from_ = false :=
      fun m' hm' => hdir m' (List.mem_cons_of_mem _ hm')
    obtain ⟨L', hrun, hfin⟩ :=
      undoMoves_spec rest fls0 (m.from_ :: L.filter (fun q => q != m.to_)) dirs E
        (n + 1) hv' (disjMoves_of_cons hd) hdir' hmem'
    refine ⟨L', ?_, hfin⟩
    show undoMoves rest (undoMove ⟨⟨L, dirs⟩, E, n⟩ m) = _
    rw [hstep, hrun]
    congr 1
    simp [List.length_cons]
    omega

/-! ### A specification of the organize loops -/

theorem rename_eq_some {fs fs' : FS} {src dest : String}
    (h : fs.rename src dest = some fs') :
    fs.files.contains src = true ∧ fs.files.contains dest = false ∧
      fs.dirs.contains dest = false ∧
      fs' = ⟨dest :: fs.files.filter (fun q => q != src), fs.dirs⟩ := by
  unfold FS.rename at h
  split at h
  · next hc =>
    simp only [Bool.and_eq_true, Bool.not_eq_true'] at hc
    exact ⟨hc.1.1, hc.1.2, hc.2, (Option.some.injEq _ _).mp h |>.symm⟩
  · exact absurd h (by simp)

theorem createDirAll_eq_some {fs fs' : FS} {d : String}
    (h : fs.createDirAll d = some fs') :
    fs' = { fs with dirs := (d :: ancestors d).foldl insertIfAbsent fs.dirs } := by
  unfold FS.createDirAll at h
  split at h
  · exact absurd h (by simp)
  · exact ((Option.some.injEq _ _).mp h).symm

/-- How many entries of a category's sequence carry a usable source path (a
string "path" field whose base file name exists): the renames that will be
attempted. -/
def attemptedFiles (l : List Jval) : Nat :=
  l.countP (fun f => (((jget f "path").bind jasStr).bind fileNameOf).isSome)

/-- The attempted renames of a whole plan object. -/
def attemptedCats (cats : List (String × Jval)) : Nat :=
  (cats.map (fun kv =>
    if kv.1 = "target_root" then 0
    else
      match jasArr kv.2 with
      | none => 0
      | some l => attemptedFiles l)).sum

/-- The attempted renames of a plan. -/
def attemptedCount (plan : Jval) : Nat :=
  match jasObj plan with
  | none => 0
  | some cats => attemptedCats cats

theorem processFiles_spec (catDir : String) :
    ∀ (l : List Jval) (st : OrgSt),
      ∃ Δ ΔE,
        processFiles catDir l st =
          { fs := ⟨applyMoves st.fs.files Δ, st.fs.dirs⟩,
            moved := st.moved + Δ.length,
            errors := st.errors ++ ΔE,
            moves := st.moves ++ Δ } ∧
        ValidOnFiles st.fs.files Δ ∧
        (ΔE = [] → Δ.length = attemptedFiles l) ∧
        (∀ e ∈ ΔE, ∃ src, e = moveFailMsg src)
  | [], st => by
    refine ⟨[], [], ?_, trivial, fun _ => rfl, by simp⟩
    simp [processFiles, applyMoves]
  | f :: rest, st => by
    show ∃ Δ ΔE, processFiles catDir rest (processFile catDir st f) = _ ∧ _
    cases h1 : (jget f "path").bind jasStr with
    | none =>
      obtain ⟨Δ, ΔE, hrun, hval, hlen, herr⟩ := processFiles_spec catDir rest st
      refine ⟨Δ, ΔE, ?_, hval, ?_, herr⟩
      · rw [show processFile catDir st f = st by simp [processFile, h1]]
        exact hrun
      · intro he
        rw [hlen he]
        simp [attemptedFiles, List.countP_cons, h1]
    | some src =>
      cases h2 : fileNameOf src with
      | none =>
        obtain ⟨Δ, ΔE, hrun, hval, hlen, herr⟩ := processFiles_spec catDir rest st
        refine ⟨Δ, ΔE, ?_, hval, ?_, herr⟩
        · rw [show processFile catDir st f = st by simp [processFile, h1, h2]]
          exact hrun
        · intro he
          rw [hlen he]
          simp [attemptedFiles, List.countP_cons, h1, h2]
      | some name =>
        cases h3 : st.fs.rename src (pathJoin catDir name) with
        | none =>
          obtain ⟨Δ, ΔE, hrun, hval, hlen, herr⟩ :=
            processFiles_spec catDir rest { st with errors := st.errors ++ [moveFailMsg src] }
          refine ⟨Δ, moveFailMsg src :: ΔE, ?_, hval, by simp, ?_⟩
          · rw [show processFile catDir st f =
                { st with errors := st.errors ++ [moveFailMsg src] } by
              simp [processFile, h1, h2, h3]]
            rw [hrun]
            simp
          · intro e he
            rcases List.mem_cons.mp he with rfl | he'
            · exact ⟨src, rfl⟩
            · exact herr e he'
        | some fs' =>
          obtain ⟨hs1, hs2, hs3, hs4⟩ := rename_eq_some h3
          obtain ⟨Δ, ΔE, hrun, hval, hlen, herr⟩ :=
            processFiles_spec catDir rest
              { st with
                fs := fs'
                moves := st.moves ++ [⟨src, pathJoin catDir name⟩]
                moved := st.moved + 1 }
          refine ⟨⟨src, pathJoin catDir name⟩ :: Δ, ΔE, ?_, ?_, ?_, herr⟩
          · rw [show processFile catDir st f =
                { st with
                  fs := fs'
                  moves := st.moves ++ [⟨src, pathJoin catDir name⟩]
                  moved := st.moved + 1 } by
              simp [processFile, h1, h2, h3]]
            rw [hrun]
            have hfe : fs'.files = applyMove st.fs.files ⟨src, pathJoin catDir name⟩ := by
              rw [hs4]
              rfl
            have hde : fs'.dirs = st.fs.dirs := by rw [hs4]
            simp only [hfe, hde, applyMoves_cons, List.length_cons,
              List.append_assoc, List.singleton_append]
            congr 1
            omega
          · exact ⟨hs1, hs2, by
              have hfe : fs'.files = applyMove st.fs.files ⟨src, pathJoin catDir name⟩ := by
                rw [hs4]
                rfl
              rw [← hfe]
              exact hval⟩
          · intro he
            rw [List.length_cons, hlen he]
            simp [attemptedFiles, List.countP_cons, h1, h2]

theorem attemptedCats_cons (kv : String × Jval) (rest : List (String × Jval)) :
    attemptedCats (kv :: rest) =
      (if kv.1 = "target_root" then 0
       else
         match jasArr kv.2 with
         | none => 0
         | some l => attemptedFiles l) + attemptedCats rest := by
  simp [attemptedCats]

theorem processCats_spec (root : String) :
    ∀ (cats : List (String × Jval)) (st : OrgSt),
      ∃ Δ ΔE dirs2,
        processCats root cats st =
          { fs := ⟨applyMoves st.fs.files Δ, dirs2⟩,
            moved := st.moved + Δ.length,
            errors := st.errors ++ ΔE,
            moves := st.moves ++ Δ } ∧
        ValidOnFiles st.fs.files Δ ∧
        (ΔE = [] → Δ.length = attemptedCats cats) ∧
        (∀ e ∈ ΔE, (∃ src, e = moveFailMsg src) ∨ (∃ d, e = dirFailMsg d))
  | [], st => by
    refine ⟨[], [], st.fs.dirs, ?_, trivial, fun _ => rfl, by simp⟩
    simp [processCats, applyMoves]
  | kv :: rest, st => by
    show ∃ Δ ΔE dirs2, processCats root rest (processCat root st kv) = _ ∧ _
    by_cases hk : kv.1 = "target_root"
    · obtain ⟨Δ, ΔE, dirs2, hrun, hval, hlen, herr⟩ := processCats_spec root rest st
      refine ⟨Δ, ΔE, dirs2, ?_, hval, ?_, herr⟩
      · rw [show processCat root st kv = st by simp [processCat, hk]]
        exact hrun
      · intro he
        rw [hlen he, attemptedCats_cons, if_pos hk, Nat.zero_add]
    · cases ha : jasArr kv.2 with
      | none =>
        obtain ⟨Δ, ΔE, dirs2, hrun, hval, hlen, herr⟩ := processCats_spec root rest st
        refine ⟨Δ, ΔE, dirs2, ?_, hval, ?_, herr⟩
        · rw [show processCat root st kv = st by simp [processCat, hk, ha]]
          exact hrun
        · intro he
          rw [hlen he, attemptedCats_cons, if_neg hk, ha, Nat.zero_add]
      | some files =>
        by_cases hfail : st.fs.pathExists (pathJoin root kv.1) = false ∧
            st.fs.createDirAll (pathJoin root kv.1) = none
        · obtain ⟨hpe, hcd⟩ := hfail
          have hpc : processCat root st kv =
              { st with errors := st.errors ++ [dirFailMsg (pathJoin root kv.1)] } := by
            simp [processCat, hk, ha, hpe, hcd]
          obtain ⟨Δ2, ΔE2, dirs2, hrun2, hval2, hlen2, herr2⟩ :=
            processCats_spec root rest
              { st with errors := st.errors ++ [dirFailMsg (pathJoin root kv.1)] }
          refine ⟨Δ2, dirFailMsg (pathJoin root kv.1) :: ΔE2, dirs2, ?_, hval2, ?_, ?_⟩
          · rw [hpc, hrun2]
            simp
          · intro he
            exact absurd he (by simp)
          · intro e he
            rcases List.mem_cons.mp he with rfl | he'
            · exact Or.inr ⟨pathJoin root kv.1, rfl⟩
            · exact herr2 e he'
        · obtain ⟨ds, hpc⟩ :
              ∃ ds, processCat root st kv =
                processFiles (pathJoin root kv.1) files
                  { st with fs := ⟨st.fs.files, ds⟩ } := by
            by_cases hpe : st.fs.pathExists (pathJoin root kv.1) = true
            · exact ⟨st.fs.dirs, by simp [processCat, hk, ha, hpe]⟩
            · have hpe' : st.fs.pathExists (pathJoin root kv.1) = false :=
                Bool.eq_false_iff.mpr hpe
              cases hcd : st.fs.createDirAll (pathJoin root kv.1) with
              | none => exact absurd ⟨hpe', hcd⟩ hfail
              | some fs' =>
                have hfs' := createDirAll_eq_some hcd
                have hfiles : fs'.files = st.fs.files := by rw [hfs']
                refine ⟨fs'.dirs, ?_⟩
                have heq : ({ st with fs := ⟨st.fs.files, fs'.dirs⟩ } : OrgSt) =
                    { st with fs := fs' } := by
                  rw [← hfiles]
                rw [heq]
                simp [processCat, hk, ha, hpe', hcd]
          obtain ⟨Δ1, ΔE1, hrun1, hval1, hlen1, herr1⟩ :=
            processFiles_spec (pathJoin root kv.1) files { st with fs := ⟨st.fs.files, ds⟩ }
          obtain ⟨Δ2, ΔE2, dirs2, hrun2, hval2, hlen2, herr2⟩ :=
            processCats_spec root rest
              { fs := ⟨applyMoves st.fs.files Δ1, ds⟩,
                moved := st.moved + Δ1.length,
                errors := st.errors ++ ΔE1,
                moves := st.moves ++ Δ1 }
          refine ⟨Δ1 ++ Δ2, ΔE1 ++ ΔE2, dirs2, ?_, ?_, ?_, ?_⟩
          · rw [hpc, hrun1]
            rw [hrun2]
            simp only [applyMoves_append, List.length_append, List.append_assoc]
            congr 1
            omega
          · exact validOnFiles_append Δ1 Δ2 st.fs.files hval1 hval2
          · intro he
            rw [List.append_eq_nil] at he
            rw [List.length_append, hlen1 he.1, hlen2 he.2,
              attemptedCats_cons, if_neg hk, ha]
          · intro e he
            rcases List.mem_append.mp he with h | h
            · exact Or.inl (herr1 e h)
            · exact herr2 e h

/-- A successful `organize_files` run: the move log applied in order is
exactly the change to the file paths, every rename in it found its source
present and destination free, and the log's length is the number of renames
the plan asked for. -/
theorem organize_ok_spec (plan : Jval) (fs0 fs1 : FS) (msg : String)
    (mvs : List FileMove)
    (h : organize_files plan fs0 = (fs1, .ok (msg, mvs))) :
    fs1.files = applyMoves fs0.files mvs ∧ ValidOnFiles fs0.files mvs ∧
      mvs.length = attemptedCount plan := by
  unfold organize_files at h
  cases hr : (jget plan "target_root").bind jasStr with
  | none =>
    rw [hr] at h
    exact absurd (congrArg Prod.snd h) (by simp)
  | some root =>
    rw [hr] at h
    cases ho : jasObj plan with
    | none =>
      rw [ho] at h
      exact absurd (congrArg Prod.snd h) (by simp)
    | some cats =>
      rw [ho] at h
      simp only at h
      obtain ⟨Δ, ΔE, dirs2, hrun, hval, hlen, herr⟩ :=
        processCats_spec root cats ⟨fs0, 0, [], []⟩
      rw [hrun] at h
      simp only at h
      by_cases he : ([] : List String) ++ ΔE = []
      · rw [if_pos he] at h
        have hEnil : ΔE = [] := by simpa using he
        injection h with hfs hok
        injection hok with hpair
        injection hpair with hmsg hmv
        subst hfs
        refine ⟨?_, ?_, ?_⟩
        · rw [← hmv]
          simp
        · rw [← hmv]
          simpa using hval
        · rw [← hmv]
          simp only [List.nil_append]
          rw [hlen hEnil]
          simp [attemptedCount, ho]
      · rw [if_neg he] at h
        exact absurd (congrArg Prod.snd h) (by simp)

/-! ### The directory-cleanup pass -/

theorem dedupFirstAux_not_mem_seen :
    ∀ (l seen : List String) (x : String), x ∈ seen → x ∉ dedupFirstAux seen l
  | [], _, _, _ => by simp [dedupFirstAux]
  | a :: rest, seen, x, hx => by
    unfold dedupFirstAux
    split
    · exact dedupFirstAux_not_mem_seen rest seen x hx
    · next hns =>
      intro hc
      rcases List.mem_cons.mp hc with rfl | hc'
      · exact hns ((contains_iff_mem _ _).mpr hx)
      · exact dedupFirstAux_not_mem_seen rest (a :: seen) x
          (List.mem_cons_of_mem _ hx) hc'

theorem dedupFirstAux_nodup :
    ∀ (l seen : List String), (dedupFirstAux seen l).Nodup
  | [], _ => by simp [dedupFirstAux]
  | a :: rest, seen => by
    unfold dedupFirstAux
    split
    · exact dedupFirstAux_nodup rest seen
    · exact List.nodup_cons.mpr
        ⟨dedupFirstAux_not_mem_seen rest (a :: seen) a (List.mem_cons_self _ _),
         dedupFirstAux_nodup rest (a :: seen)⟩

theorem dedupFirst_nodup (l : List String) : (dedupFirst l).Nodup :=
  dedupFirstAux_nodup l []

theorem removeDir_files (fs : FS) (d : String) :
    (FS.removeDir fs d).files = fs.files := by
  unfold FS.removeDir
  split <;> rfl

theorem removeFolders_files :
    ∀ (folders : List String) (fs : FS),
      (removeFolders folders fs).files = fs.files
  | [], _ => rfl
  | d :: rest, fs => by
    show (removeFolders rest (FS.removeDir fs d)).files = fs.files
    rw [removeFolders_files rest _, removeDir_files]

theorem removeDir_dirs_other (fs : FS) (d q : String) (hne : q ≠ d) :
    q ∈ (FS.removeDir fs d).dirs ↔ q ∈ fs.dirs := by
  unfold FS.removeDir
  split
  · simp [List.mem_filter, bne_iff_ne, hne]
  · exact Iff.rfl

theorem any_filter_ne (l : List String) (d : String) (P : String → Bool)
    (hPd : P d = false) :
    (l.filter (fun q => q != d)).any P = l.any P := by
  rcases hr : l.any P with _ | _
  · rw [Bool.eq_false_iff, Ne, List.any_eq_true]
    rintro ⟨x, hx, hPx⟩
    rw [Bool.eq_false_iff, Ne, List.any_eq_true] at hr
    exact hr ⟨x, List.mem_of_mem_filter hx, hPx⟩
  · rw [List.any_eq_true] at hr ⊢
    obtain ⟨x, hx, hPx⟩ := hr
    have hxd : x ≠ d := fun he => by
      rw [he, hPd] at hPx
      exact Bool.noConfusion hPx
    exact ⟨x, List.mem_filter.mpr ⟨hx, by simpa [bne_iff_ne] using hxd⟩, hPx⟩

theorem removeDir_dirEmpty_other (fs : FS) (d d' : String)
    (hni : properInside d d' = false) :
    (FS.removeDir fs d').dirEmpty d = fs.dirEmpty d := by
  unfold FS.removeDir
  split
  · unfold FS.dirEmpty
    simp only
    rw [any_filter_ne fs.dirs d' (fun q => properInside d q) hni]
  · rfl

theorem removeFolders_mem_notin :
    ∀ (folders : List String) (g : FS) (d : String), d ∉ folders →
      (d ∈ (removeFolders folders g).dirs ↔ d ∈ g.dirs)
  | [], _, _, _ => Iff.rfl
  | x :: xs, g, d, h => by
    have hne : d ≠ x := fun he => h (he ▸ List.mem_cons_self _ _)
    have hrest : d ∉ xs := fun hc => h (List.mem_cons_of_mem _ hc)
    show d ∈ (removeFolders xs (FS.removeDir g x)).dirs ↔ _
    rw [removeFolders_mem_notin xs _ d hrest]
    exact removeDir_dirs_other g x d hne

/-- The cleanup pass removes a collected directory exactly when it is absent
already or empty at the start of the pass, provided the collected directories
are distinct and none lies inside another (each removal then leaves the
others' emptiness unchanged). -/
theorem removeFolders_spec :
    ∀ (folders : List String) (fs : FS),
      folders.Nodup →
      (∀ a ∈ folders, ∀ b ∈ folders, properInside a b = false) →
      ∀ d ∈ folders,
        (d ∉ (removeFolders folders fs).dirs ↔
          (d ∉ fs.dirs ∨ fs.dirEmpty d = true))
  | [], _, _, _ => by simp
  | d' :: rest, fs, hnd, hnest => by
    intro d hd
    obtain ⟨hd'nr, hndr⟩ := List.nodup_cons.mp hnd
    have hfold : removeFolders (d' :: rest) fs = removeFolders rest (FS.removeDir fs d') := rfl
    rcases List.mem_cons.mp hd with rfl | hdr
    · rw [hfold]
      have hmem1 : d ∈ (removeFolders rest (FS.removeDir fs d)).dirs ↔
          d ∈ (FS.removeDir fs d).dirs :=
        removeFolders_mem_notin rest (FS.removeDir fs d) d hd'nr
      rw [hmem1]
      unfold FS.removeDir
      split
      · next hc =>
        rw [Bool.and_eq_true] at hc
        constructor
        · intro _
          exact Or.inr hc.2
        · intro _ hmemf
          have := (List.mem_filter.mp hmemf).2
          simp at this
      · next hc =>
        rw [Bool.and_eq_true] at hc
        constructor
        · exact fun h => Or.inl h
        · rintro (h | hemp)
          · exact h
          · intro hmemd
            exact hc ⟨(contains_iff_mem _ _).mpr hmemd, hemp⟩
    · have hne : d ≠ d' := fun he => hd'nr (he ▸ hdr)
      have hnest' : ∀ a ∈ rest, ∀ b ∈ rest, properInside a b = false :=
        fun a ha b hb =>
          hnest a (List.mem_cons_of_mem _ ha) b (List.mem_cons_of_mem _ hb)
      have IH := removeFolders_spec rest (FS.removeDir fs d') hndr hnest' d hdr
      rw [hfold, IH]
      have h1 : d ∈ (FS.removeDir fs d').dirs ↔ d ∈ fs.dirs :=
        removeDir_dirs_other fs d' d hne
      have h2 : (FS.removeDir fs d').dirEmpty d = fs.dirEmpty d :=
        removeDir_dirEmpty_other fs d d'
          (hnest d (List.mem_cons_of_mem _ hdr) d' (List.mem_cons_self _ _))
      rw [h2]
      exact or_congr (not_congr h1) Iff.rfl

/-- C2 amended: a fully successful organize run yields a Move Log with
exactly one entry per attempted rename, and undoing it restores every file
and removes each collected category directory iff it is empty right after
the reversals — provided no move's source path coincides with any move's
destination (no chained moves through the target tree), no source path is
occupied by a directory when undo runs, and no two collected category
directories nest.  Without these provisos the round trip can fail (see the
counterexample). -/
theorem organize_undo_round_trip
    (plan : Jval) (fs0 fs1 : FS) (msg : String) (mvs : List FileMove)
    (horg : organize_files plan fs0 = (fs1, .ok (msg, mvs)))
    (hdisj : ∀ m ∈ mvs, ∀ m' ∈ mvs, m.from_ ≠ m'.to_)
    (hdirs : ∀ m ∈ mvs, fs1.dirs.contains m.from_ = false)
    (hnest : ∀ a ∈ foldersToCheck mvs, ∀ b ∈ foldersToCheck mvs,
      properInside a b = false) :
    mvs.length = attemptedCount plan ∧
    (undo_organize mvs fs1).2 =
      .ok ("✅ Undo successful! Restored " ++ toString mvs.length ++ " files.") ∧
    (∀ p, ((undo_organize mvs fs1).1.files.contains p = true ↔ p ∈ fs0.files)) ∧
    (∀ m ∈ mvs, m.from_ ∈ (undo_organize mvs fs1).1.files ∧
      m.to_ ∉ (undo_organize mvs fs1).1.files) ∧
    (∀ d ∈ foldersToCheck mvs,
      ((d ∈ fs1.dirs ∧ d ∉ (undo_organize mvs fs1).1.dirs) ↔
        (d ∈ fs1.dirs ∧ (afterReversals mvs fs1).dirEmpty d = true))) := by
  obtain ⟨hfiles, hvalid, hlen⟩ := organize_ok_spec plan fs0 fs1 msg mvs horg
  have hDisj : DisjMoves mvs := hdisj
  have hmemL : ∀ p, fs1.files.contains p = true ↔
      (p ∈ tosList mvs ∨ (p ∈ fs0.files ∧ p ∉ fromsList mvs)) := by
    intro p
    rw [contains_iff_mem, hfiles]
    exact mem_applyMoves mvs fs0.files p hDisj
  obtain ⟨L', hrun0, hfin⟩ :=
    undoMoves_spec mvs fs0.files fs1.files fs1.dirs [] 0 hvalid hDisj hdirs hmemL
  have hrun : undoMoves mvs ⟨fs1, [], 0⟩ = ⟨⟨L', fs1.dirs⟩, [], 0 + mvs.length⟩ := hrun0
  have hrev : afterReversals mvs fs1 = ⟨L', fs1.dirs⟩ := by
    unfold afterReversals
    rw [hrun]
  have hundo : undo_organize mvs fs1 =
      (removeFolders (foldersToCheck mvs) ⟨L', fs1.dirs⟩,
        .ok ("✅ Undo successful! Restored " ++ toString mvs.length ++ " files.")) := by
    unfold undo_organize
    rw [hrun]
    simp [Nat.zero_add]
  have hfinfiles : (undo_organize mvs fs1).1.files = L' := by
    rw [hundo]
    exact removeFolders_files _ _
  refine ⟨hlen, by rw [hundo], ?_, ?_, ?_⟩
  · intro p
    rw [hfinfiles]
    exact hfin p
  · intro m hm
    have hmf : m.from_ ∈ fromsList mvs := by
      simp only [fromsList, List.mem_map]
      exact ⟨m, hm, rfl⟩
    have hmt : m.to_ ∈ tosList mvs := by
      simp only [tosList, List.mem_map]
      exact ⟨m, hm, rfl⟩
    have hfrom0 : m.from_ ∈ fs0.files := by
      rcases froms_subset mvs fs0.files hvalid m.from_ hmf with h | h
      · exact h
      · simp only [tosList, List.mem_map] at h
        obtain ⟨m', hm', he⟩ := h
        exact absurd he.symm (hdisj m hm m' hm')
    have hto0 : m.to_ ∉ fs0.files := by
      intro hc
      have hnf : m.to_ ∉ fromsList mvs := by
        intro hcc
        simp only [fromsList, List.mem_map] at hcc
        obtain ⟨m', hm', he⟩ := hcc
        exact hdisj m' hm' m hm he
      exact stays_out_tos mvs fs0.files m.to_ hvalid hc hnf hmt
    constructor
    · rw [← contains_iff_mem, hfinfiles]
      exact (hfin _).mpr hfrom0
    · rw [← contains_iff_mem, hfinfiles]
      intro hc
      exact hto0 ((hfin _).mp hc)
  · intro d hd
    have hspec := removeFolders_spec (foldersToCheck mvs) ⟨L', fs1.dirs⟩
      (dedupFirst_nodup _) hnest d hd
    have hdirs2 : (undo_organize mvs fs1).1.dirs =
        (removeFolders (foldersToCheck mvs) ⟨L', fs1.dirs⟩).dirs := by
      rw [hundo]
    rw [hdirs2, hrev]
    constructor
    · rintro ⟨hdin, hnot⟩
      rcases hspec.mp hnot with h | h
      · exact absurd hdin h
      · exact ⟨hdin, h⟩
    · rintro ⟨hdin, hemp⟩
      exact ⟨hdin, hspec.mpr (Or.inr hemp)⟩

/-- Witness for C2 (amended): a one-file plan organized into "root/Docs" and
undone; the undo succeeds, the file is back at "s/f.txt", and the created
category directory is removed. -/
theorem organize_undo_round_trip_witness :
    (undo_organize [⟨"s/f.txt", "root/Docs/f.txt"⟩]
        ⟨["root/Docs/f.txt"], ["root/Docs", "root", "s"]⟩).2 =
      .ok ("✅ Undo successful! Restored 1 files.") ∧
    "s/f.txt" ∈ (undo_organize [⟨"s/f.txt", "root/Docs/f.txt"⟩]
        ⟨["root/Docs/f.txt"], ["root/Docs", "root", "s"]⟩).1.files ∧
    "root/Docs" ∉ (undo_organize [⟨"s/f.txt", "root/Docs/f.txt"⟩]
        ⟨["root/Docs/f.txt"], ["root/Docs", "root", "s"]⟩).1.dirs := by
  have h := organize_undo_round_trip
    (Jval.jobj [("target_root", .jstr "root"),
      ("Docs", .jarr [.jobj [("path", .jstr "s/f.txt")]])])
    ⟨["s/f.txt"], ["root", "s"]⟩
    ⟨["root/Docs/f.txt"], ["root/Docs", "root", "s"]⟩
    "✅ Organized 1 files successfully!"
    [⟨"s/f.txt", "root/Docs/f.txt"⟩]
    rfl (by decide) (by decide) (by decide)
  refine ⟨h.2.1, ?_, ?_⟩
  · exact (h.2.2.2.1 ⟨"s/f.txt", "root/Docs/f.txt"⟩ (by decide)).1
  · exact ((h.2.2.2.2 "root/Docs" (by decide)).mpr ⟨by decide, by decide⟩).2

/-- C2 counterexample: a plan whose second category's source is the first
move's destination.  Every attempted rename succeeds (organize returns the
success payload with two moves and an empty error list), yet undoing that
very Move Log does not restore the original state: the chained file ends at
"root/A/a.txt", "src/a.txt" is not restored, and undo itself reports an
aggregate failure. -/
theorem organize_undo_chain_counterexample :
    (organize_files
        (Jval.jobj [("target_root", .jstr "root"),
          ("A", .jarr [.jobj [("path", .jstr "src/a.txt")]]),
          ("B", .jarr [.jobj [("path", .jstr "root/A/a.txt")]])])
        ⟨["src/a.txt"], ["root", "src"]⟩).2 =
      .ok ("✅ Organized 2 files successfully!",
        [⟨"src/a.txt", "root/A/a.txt"⟩, ⟨"root/A/a.txt", "root/B/a.txt"⟩]) ∧
    "src/a.txt" ∉ (undo_organize
        [⟨"src/a.txt", "root/A/a.txt"⟩, ⟨"root/A/a.txt", "root/B/a.txt"⟩]
        (organize_files
          (Jval.jobj [("target_root", .jstr "root"),
            ("A", .jarr [.jobj [("path", .jstr "src/a.txt")]]),
            ("B", .jarr [.jobj [("path", .jstr "root/A/a.txt")]])])
          ⟨["src/a.txt"], ["root", "src"]⟩).1).1.files ∧
    ((undo_organize
        [⟨"src/a.txt", "root/A/a.txt"⟩, ⟨"root/A/a.txt", "root/B/a.txt"⟩]
        (organize_files
          (Jval.jobj [("target_root", .jstr "root"),
            ("A", .jarr [.jobj [("path", .jstr "src/a.txt")]]),
            ("B", .jarr [.jobj [("path", .jstr "root/A/a.txt")]])])
          ⟨["src/a.txt"], ["root", "src"]⟩).1).2).isOk = false := by
  refine ⟨rfl, by decide, rfl⟩

/-! ### Substring facts for the aggregate error text -/

theorem listContainsSub_iff :
    ∀ (hay pat : List Char),
      listContainsSub pat hay = true ↔ ∃ s t, hay = s ++ pat ++ t
  | [], pat => by
    constructor
    · intro h
      have hp : pat = [] := by
        cases pat with
        | nil => rfl
        | cons c cs => simp [listContainsSub, List.isEmpty] at h
      subst hp
      exact ⟨[], [], rfl⟩
    · rintro ⟨s, t, he⟩
      have hs := List.append_eq_nil.mp he.symm
      have hp : pat = [] := (List.append_eq_nil.mp hs.1).2
      subst hp
      simp [listContainsSub, List.isEmpty]
  | c :: rest, pat => by
    simp only [listContainsSub, Bool.or_eq_true]
    constructor
    · rintro (h | h)
      · obtain ⟨t, ht⟩ := List.isPrefixOf_iff_prefix.mp h
        exact ⟨[], t, by rw [List.nil_append]; exact ht.symm⟩
      · obtain ⟨s, t, he⟩ := (listContainsSub_iff rest pat).mp h
        exact ⟨c :: s, t, by rw [he]; rfl⟩
    · rintro ⟨s, t, he⟩
      cases s with
      | nil =>
        refine Or.inl (List.isPrefixOf_iff_prefix.mpr ⟨t, ?_⟩)
        rw [List.nil_append] at he
        exact he.symm
      | cons c' s' =>
        injection he with h1 h2
        exact Or.inr ((listContainsSub_iff rest pat).mpr ⟨s', t, h2⟩)

/-- `strContains` characterised by a decomposition of the haystack. -/
theorem strContains_iff (hay pat : String) :
    strContains hay pat = true ↔ ∃ s t, hay.toList = s ++ pat.toList ++ t :=
  listContainsSub_iff hay.toList pat.toList

theorem strToList_append (a b : String) :
    (a ++ b).toList = a.toList ++ b.toList := by
  cases a
  cases b
  rfl

theorem strContains_self (a : String) : strContains a a = true :=
  (strContains_iff a a).mpr ⟨[], [], by simp⟩

theorem strContains_append_left (a b pat : String)
    (h : strContains a pat = true) : strContains (a ++ b) pat = true := by
  obtain ⟨s, t, he⟩ := (strContains_iff a pat).mp h
  refine (strContains_iff _ _).mpr ⟨s, t ++ b.toList, ?_⟩
  rw [strToList_append, he]
  simp [List.append_assoc]

theorem strContains_append_right (a b pat : String)
    (h : strContains b pat = true) : strContains (a ++ b) pat = true := by
  obtain ⟨s, t, he⟩ := (strContains_iff b pat).mp h
  refine (strContains_iff _ _).mpr ⟨a.toList ++ s, t, ?_⟩
  rw [strToList_append, he]
  simp [List.append_assoc]

theorem strContains_trans (a b c : String) (h1 : strContains a b = true)
    (h2 : strContains b c = true) : strContains a c = true := by
  obtain ⟨s1, t1, he1⟩ := (strContains_iff a b).mp h1
  obtain ⟨s2, t2, he2⟩ := (strContains_iff b c).mp h2
  refine (strContains_iff a c).mpr ⟨s1 ++ s2, t2 ++ t1, ?_⟩
  rw [he1, he2]
  simp [List.append_assoc]

theorem intercalate_go_contains (sep : String) :
    ∀ (as : List String) (acc e : String),
      (strContains acc e = true ∨ e ∈ as) →
      strContains (String.intercalate.go acc sep as) e = true
  | [], acc, e, h => by
    rcases h with h | h
    · exact h
    · simp at h
  | a :: as, acc, e, h => by
    rw [show String.intercalate.go acc sep (a :: as) =
        String.intercalate.go (acc ++ sep ++ a) sep as from rfl]
    refine intercalate_go_contains sep as (acc ++ sep ++ a) e ?_
    rcases h with h | h
    · exact Or.inl (strContains_append_left _ _ _ (strContains_append_left _ _ _ h))
    · rcases List.mem_cons.mp h with rfl | h'
      · exact Or.inl (strContains_append_right _ _ _ (strContains_self e))
      · exact Or.inr h'

/-- Every element of the list occurs as a substring of its intercalation. -/
theorem mem_intercalate_contains (sep : String) (l : List String) (e : String)
    (he : e ∈ l) : strContains (String.intercalate sep l) e = true := by
  cases l with
  | nil => exact absurd he (List.not_mem_nil e)
  | cons a as =>
    rw [show String.intercalate sep (a :: as) = String.intercalate.go a sep as from rfl]
    rcases List.mem_cons.mp he with rfl | h'
    · exact intercalate_go_contains sep as e e (Or.inl (strContains_self e))
    · exact intercalate_go_contains sep as a e (Or.inr h')

/-- C3: when any rename fails, the run still visits every remaining file (a
failing entry only appends its error text and processing continues), no
MoveRecord is recorded for a failure (the moved counter always equals the
log's length), every accumulated error is either a per-file move error naming
its source path (main.rs:301) or a directory-creation error naming the
category directory (main.rs:284), each failing file's source path occurs as a
substring of the final aggregate error text, and that text reports the exact
moved count with all per-file messages concatenated. -/
theorem organize_partial_failure (plan : Jval) (fs0 : FS) (root : String)
    (cats : List (String × Jval))
    (hr : (jget plan "target_root").bind jasStr = some root)
    (ho : jasObj plan = some cats) :
    ((processCats root cats ⟨fs0, 0, [], []⟩).errors ≠ [] →
      organize_files plan fs0 =
        ((processCats root cats ⟨fs0, 0, [], []⟩).fs,
         .error ("Moved " ++ toString (processCats root cats ⟨fs0, 0, [], []⟩).moved ++
           " files, but some errors occurred:\n" ++
           String.intercalate "\n" (processCats root cats ⟨fs0, 0, [], []⟩).errors))) ∧
    (processCats root cats ⟨fs0, 0, [], []⟩).moved =
      (processCats root cats ⟨fs0, 0, [], []⟩).moves.length ∧
    (∀ e ∈ (processCats root cats ⟨fs0, 0, [], []⟩).errors,
      (∃ src, e = moveFailMsg src) ∨ (∃ d, e = dirFailMsg d)) ∧
    (∀ src, moveFailMsg src ∈ (processCats root cats ⟨fs0, 0, [], []⟩).errors →
      strContains ("Moved " ++ toString (processCats root cats ⟨fs0, 0, [], []⟩).moved ++
        " files, but some errors occurred:\n" ++
        String.intercalate "\n" (processCats root cats ⟨fs0, 0, [], []⟩).errors)
        src = true) ∧
    (∀ (catDir : String) (f : Jval) (rest : List Jval) (st : OrgSt) (src name : String),
      (jget f "path").bind jasStr = some src → fileNameOf src = some name →
      st.fs.rename src (pathJoin catDir name) = none →
      processFiles catDir (f :: rest) st =
        processFiles catDir rest { st with errors := st.errors ++ [moveFailMsg src] }) := by
  obtain ⟨Δ, ΔE, dirs2, hrun, hval, hlen, herr⟩ :=
    processCats_spec root cats ⟨fs0, 0, [], []⟩
  refine ⟨?_, ?_, ?_, ?_, ?_⟩
  · intro hne
    simp only [organize_files, hr, ho]
    rw [if_neg hne]
  · rw [hrun]
    simp
  · rw [hrun]
    simpa using herr
  · intro src hsrc
    refine strContains_trans _ (moveFailMsg src) _ ?_ ?_
    · exact strContains_append_right _ _ _ (mem_intercalate_contains "\n" _ _ hsrc)
    · exact strContains_append_left _ _ _
        (strContains_append_left _ _ _
          (strContains_append_right _ _ _ (strContains_self src)))
  · intro catDir f rest st src name h1 h2 h3
    show processFiles catDir rest (processFile catDir st f) = _
    rw [show processFile catDir st f = { st with errors := st.errors ++ [moveFailMsg src] } by
      simp [processFile, h1, h2, h3]]

/-- Witness for C3: a plan naming a file that does not exist; organize
returns the aggregate error, the failing file's source path occurs in its
text, and the failing step only records its error. -/
theorem organize_partial_failure_witness :
    organize_files
        (Jval.jobj [("target_root", .jstr "root"),
          ("Docs", .jarr [.jobj [("path", .jstr "missing.txt")]])]) ⟨[], ["root"]⟩ =
      ((processCats "root" [("target_root", .jstr "root"),
          ("Docs", .jarr [.jobj [("path", .jstr "missing.txt")]])]
          ⟨⟨[], ["root"]⟩, 0, [], []⟩).fs,
       .error ("Moved " ++
         toString (processCats "root" [("target_root", .jstr "root"),
           ("Docs", .jarr [.jobj [("path", .jstr "missing.txt")]])]
           ⟨⟨[], ["root"]⟩, 0, [], []⟩).moved ++
         " files, but some errors occurred:\n" ++
         String.intercalate "\n" (processCats "root" [("target_root", .jstr "root"),
           ("Docs", .jarr [.jobj [("path", .jstr "missing.txt")]])]
           ⟨⟨[], ["root"]⟩, 0, [], []⟩).errors)) ∧
    strContains ("Moved " ++
        toString (processCats "root" [("target_root", .jstr "root"),
          ("Docs", .jarr [.jobj [("path", .jstr "missing.txt")]])]
          ⟨⟨[], ["root"]⟩, 0, [], []⟩).moved ++
        " files, but some errors occurred:\n" ++
        String.intercalate "\n" (processCats "root" [("target_root", .jstr "root"),
          ("Docs", .jarr [.jobj [("path", .jstr "missing.txt")]])]
          ⟨⟨[], ["root"]⟩, 0, [], []⟩).errors) "missing.txt" = true ∧
    processFiles "root/Docs" [Jval.jobj [("path", .jstr "missing.txt")]]
        ⟨⟨[], ["root"]⟩, 0, [], []⟩ =
      processFiles "root/Docs" []
        ⟨⟨[], ["root"]⟩, 0, [moveFailMsg "missing.txt"], []⟩ :=
  ⟨(organize_partial_failure
      (Jval.jobj [("target_root", .jstr "root"),
        ("Docs", .jarr [.jobj [("path", .jstr "missing.txt")]])])
      ⟨[], ["root"]⟩ "root"
      [("target_root", .jstr "root"),
        ("Docs", .jarr [.jobj [("path", .jstr "missing.txt")]])]
      rfl rfl).1 (by decide),
   (organize_partial_failure
      (Jval.jobj [("target_root", .jstr "root"),
        ("Docs", .jarr [.jobj [("path", .jstr "missing.txt")]])])
      ⟨[], ["root"]⟩ "root"
      [("target_root", .jstr "root"),
        ("Docs", .jarr [.jobj [("path", .jstr "missing.txt")]])]
      rfl rfl).2.2.2.1 "missing.txt" (by decide),
   (organize_partial_failure
      (Jval.jobj [("target_root", .jstr "root"),
        ("Docs", .jarr [.jobj [("path", .jstr "missing.txt")]])])
      ⟨[], ["root"]⟩ "root"
      [("target_root", .jstr "root"),
        ("Docs", .jarr [.jobj [("path", .jstr "missing.txt")]])]
      rfl rfl).2.2.2.2 "root/Docs" (Jval.jobj [("path", .jstr "missing.txt")]) []
      ⟨⟨[], ["root"]⟩, 0, [], []⟩ "missing.txt" "missing.txt" rfl rfl rfl⟩

theorem lookup_skip :
    ∀ (pre : List (String × Jval)) (k : String) (v : Jval)
      (post : List (String × Jval)) (a : String), (a == k) = false →
      (pre ++ (k, v) :: post).lookup a = (pre ++ post).lookup a
  | [], k, v, post, a, h => by
    simp only [List.nil_append, List.lookup, h]
  | (k', v') :: pre, k, v, post, a, h => by
    simp only [List.cons_append, List.lookup]
    cases a == k' with
    | true => rfl
    | false => exact lookup_skip pre k v post a h

theorem processCats_append (root : String) :
    ∀ (l1 l2 : List (String × Jval)) (st : OrgSt),
      processCats root (l1 ++ l2) st = processCats root l2 (processCats root l1 st)
  | [], _, _ => rfl
  | kv :: l1, l2, st => processCats_append root l1 l2 (processCat root st kv)

/-- C9: organize fails immediately — state untouched — with the
missing-target_root error when the plan has no `target_root` string field,
and a category entry whose value is not a sequence is skipped silently: the
whole run is identical to the run on the plan without that entry. -/
theorem organize_plan_validation :
    (∀ (plan : Jval) (fs : FS),
      (jget plan "target_root").bind jasStr = none →
      organize_files plan fs =
        (fs, .error "Missing 'target_root' in organization plan")) ∧
    (∀ (fs : FS) (pre post : List (String × Jval)) (k : String) (v : Jval),
      k ≠ "target_root" → jasArr v = none →
      organize_files (.jobj (pre ++ (k, v) :: post)) fs =
        organize_files (.jobj (pre ++ post)) fs) := by
  constructor
  · intro plan fs h
    simp only [organize_files, h]
  · intro fs pre post k v hk ha
    have hbeq : ("target_root" == k) = false := by
      rw [beq_eq_false_iff_ne]
      exact fun he => hk he.symm
    have hlk : (pre ++ (k, v) :: post).lookup "target_root" =
        (pre ++ post).lookup "target_root" :=
      lookup_skip pre k v post "target_root" hbeq
    unfold organize_files
    have e1 : (jget (Jval.jobj (pre ++ (k, v) :: post)) "target_root").bind jasStr =
        (jget (Jval.jobj (pre ++ post)) "target_root").bind jasStr := by
      show ((pre ++ (k, v) :: post).lookup "target_root").bind jasStr = _
      rw [hlk]
      rfl
    rw [e1]
    cases hs : (jget (Jval.jobj (pre ++ post)) "target_root").bind jasStr with
    | none => rfl
    | some root =>
      simp only [jasObj]
      have e2 : processCats root (pre ++ (k, v) :: post) ⟨fs, 0, [], []⟩ =
          processCats root (pre ++ post) ⟨fs, 0, [], []⟩ := by
        rw [processCats_append, processCats_append]
        show processCats root post
            (processCat root (processCats root pre ⟨fs, 0, [], []⟩) (k, v)) = _
        rw [show processCat root (processCats root pre ⟨fs, 0, [], []⟩) (k, v) =
            processCats root pre ⟨fs, 0, [], []⟩ by simp [processCat, hk, ha]]
      rw [e2]

/-- Witness for C9: a plan with no target_root fails with the exact error and
untouched state; inserting a non-sequence category entry changes nothing. -/
theorem organize_plan_validation_witness :
    organize_files (Jval.jobj [("cats", .jarr [])]) ⟨[], []⟩ =
      (⟨[], []⟩, .error "Missing 'target_root' in organization plan") ∧
    organize_files (Jval.jobj ([("target_root", .jstr "root")] ++
        ("junk", .jstr "nope") :: [("Docs", .jarr [])])) ⟨[], ["root"]⟩ =
      organize_files (Jval.jobj ([("target_root", .jstr "root")] ++
        [("Docs", .jarr [])])) ⟨[], ["root"]⟩ :=
  ⟨organize_plan_validation.1 (Jval.jobj [("cats", .jarr [])]) ⟨[], []⟩ rfl,
   organize_plan_validation.2 ⟨[], ["root"]⟩ [("target_root", .jstr "root")]
     [("Docs", .jarr [])] "junk" (.jstr "nope") (by decide) rfl⟩

/-- C10: a file entry with no string "path" field, or whose path has no
extractable base name, is skipped silently: the run on the remaining entries
from the unchanged state — no rename, no error, no count, no MoveRecord. -/
theorem organize_skips_invalid_entry (catDir : String) (f : Jval)
    (rest : List Jval) (st : OrgSt)
    (h : (jget f "path").bind jasStr = none ∨
      ∃ src, (jget f "path").bind jasStr = some src ∧ fileNameOf src = none) :
    processFiles catDir (f :: rest) st = processFiles catDir rest st := by
  rcases h with h | ⟨src, h1, h2⟩
  · show processFiles catDir rest (processFile catDir st f) = _
    rw [show processFile catDir st f = st by simp [processFile, h]]
  · show processFiles catDir rest (processFile catDir st f) = _
    rw [show processFile catDir st f = st by simp [processFile, h1, h2]]

/-- Witness for C10: an entry without "path", and one whose path "a/.." has
no base name; both leave the state exactly as it was. -/
theorem organize_skips_invalid_entry_witness :
    processFiles "root/Docs" [Jval.jobj []] ⟨⟨[], []⟩, 0, [], []⟩ =
      processFiles "root/Docs" [] ⟨⟨[], []⟩, 0, [], []⟩ ∧
    processFiles "root/Docs" [Jval.jobj [("path", Jval.jstr "a/..")]]
        ⟨⟨[], []⟩, 0, [], []⟩ =
      processFiles "root/Docs" [] ⟨⟨[], []⟩, 0, [], []⟩ :=
  ⟨organize_skips_invalid_entry "root/Docs" (Jval.jobj []) [] ⟨⟨[], []⟩, 0, [], []⟩
     (Or.inl rfl),
   organize_skips_invalid_entry "root/Docs" (Jval.jobj [("path", Jval.jstr "a/..")])
     [] ⟨⟨[], []⟩, 0, [], []⟩ (Or.inr ⟨"a/..", rfl, rfl⟩)⟩

end FileSense
